import Mathlib

/-!
Verification development for the word-frequency counter in src/src/main.rs.

Modelling conventions used throughout:
* Rust text (str / String) is modelled as a list of characters, the sequence
  of Unicode scalar values the Rust code iterates over.
* The host primitives char::is_alphabetic, char-wise to_lowercase and the
  code-point ordering on char are modelled by Char.isAlpha, Char.toLower and
  comparison of Char.toNat; they agree with the host on the ASCII input used
  by every concrete example.
* The Dictionary (a HashMap from String to u32) is modelled as an association
  list with unique keys; dictLookup / dictIncr model lookup and the
  entry(w).or_insert(0) += 1 update.  Counts are Nat (the spec places u32
  overflow out of scope).  HashMap equality is lookup (key-value) equality.
* Fallible I/O is modelled explicitly: an abstract file-system tree FsEntry
  records, for each node, the outcome the host would produce (file contents
  or an I/O error code, directory listings or a listing error), and stdin is
  an explicit read outcome.  io::Error is modelled as a Nat error code.
* Output writers are modelled as a character-list accumulator; each formatter
  appends the bytes it would write.
-/

set_option maxRecDepth 8000

/-- Models the host alphabetic-character classification used by the tokenizer
(Rust char::is_alphabetic). -/
def isAlphabetic (c : Char) : Bool := c.isAlpha

/-- Words (Rust String keys) as character lists. -/
abbrev Word := List Char

/-- Model of type Dictionary = HashMap of String to u32: an association list
from words to counts; lookup equality is HashMap equality. -/
abbrev Dictionary := List (Word × Nat)

/-- Model of type WordPair = (String, u32). -/
abbrev WordPair := Word × Nat

/-- Model of type WordCountVec = Vec of WordPair. -/
abbrev WordCountVec := List WordPair

/-- HashMap lookup: the count stored for a key, if present. -/
def dictLookup : Dictionary → Word → Option Nat
  | [], _ => none
  | (k, v) :: rest, w => if k = w then some v else dictLookup rest w

/-- Models map.entry(w).or_insert(0) followed by an increment: updates the
entry for w in place, or inserts (w, 1) when w is absent. -/
def dictIncr : Dictionary → Word → Dictionary
  | [], w => [(w, 1)]
  | (k, v) :: rest, w => if k = w then (k, v + 1) :: rest else (k, v) :: dictIncr rest w

/-- Models the case closure of count_words: to_lowercase when ignore_case is
set, identity (to_string) otherwise. -/
def applyCase (ignore_case : Bool) (w : Word) : Word :=
  if ignore_case then w.map Char.toLower else w

/-- Models str::split with a character predicate: the chunks of the input
between delimiter characters; adjacent, leading and trailing delimiters
produce empty chunks, exactly as in Rust. -/
def splitList (p : Char → Bool) : List Char → List (List Char)
  | [] => [[]]
  | c :: cs =>
    if p c then [] :: splitList p cs
    else
      match splitList p cs with
      | [] => [[c]]
      | t :: ts => (c :: t) :: ts

/-- Tail of a split after its first chunk: empty when the input had no
delimiter, otherwise the split of what follows the first delimiter. -/
def splitRest (p : Char → Bool) : List Char → List (List Char)
  | [] => []
  | _ :: rest => splitList p rest

/-- Translation of count_words (src/src/main.rs lines 441-457): split the
input at every non-alphabetic character, skip empty chunks, apply the case
closure, and bump each resulting word's count in the dictionary. -/
def count_words (s : List Char) (map : Dictionary) (ignore_case : Bool) : Dictionary :=
  let words := splitList (fun c => !(isAlphabetic c)) s
  words.foldl
    (fun m word =>
      if word.isEmpty then m else dictIncr m (applyCase ignore_case word))
    map

/-- Maximal runs of alphabetic characters of a text, stated the way the spec
describes candidate words: a run starts at an alphabetic character, extends
as far as alphabetic characters reach, and everything else is skipped. -/
def alphaRuns : List Char → List Word
  | [] => []
  | c :: cs =>
    if isAlphabetic c then
      (c :: cs.takeWhile (fun d => isAlphabetic d)) :: alphaRuns (cs.dropWhile (fun d => isAlphabetic d))
    else
      alphaRuns cs
termination_by l => l.length
decreasing_by
  · have h : (cs.dropWhile (fun d => isAlphabetic d)).length ≤ cs.length := by
      induction cs with
      | nil => simp
      | cons a as ih =>
        cases h : isAlphabetic a
        · simp [List.dropWhile, h]
        · simp only [List.dropWhile, h, List.length_cons]
          omega
    simp only [List.length_cons]
    omega
  · simp

/-- Tokens a call to count_words tallies: the maximal alphabetic runs of the
input, case-folded when ignore_case is set. -/
def tokensOf (s : List Char) (ignore_case : Bool) : List Word :=
  (alphaRuns s).map (applyCase ignore_case)

/-- A sequence of count_words calls accumulating into a dictionary that
starts empty; each call brings its own input string and case flag. -/
def runCalls (calls : List (List Char × Bool)) : Dictionary :=
  calls.foldl (fun d c => count_words c.1 d c.2) []

/-- Decimal digit character, as produced by formatting a u32. -/
def digitChar (d : Nat) : Char := Char.ofNat (48 + d)

/-- Decimal rendering of a count, modelling the Display formatting of u32. -/
def natChars (n : Nat) : List Char :=
  if n < 10 then [digitChar n]
  else natChars (n / 10) ++ [digitChar (n % 10)]
termination_by n
decreasing_by
  exact Nat.div_lt_self (by omega) (by omega)

/-- UTF-8 byte width of a character, modelling how Rust String::len counts. -/
def charWidth (c : Char) : Nat :=
  if c.toNat < 128 then 1
  else if c.toNat < 2048 then 2
  else if c.toNat < 65536 then 3
  else 4

/-- Model of String::len: the UTF-8 byte length of a word. -/
def byteLen (w : Word) : Nat := (w.map charWidth).sum

/-- Model of the code-point ordering on char underlying str comparison. -/
def cmpChar (a b : Char) : Ordering := compare a.toNat b.toNat

/-- Model of String::cmp: lexicographic comparison of the character lists
(UTF-8 byte order and code-point order agree). -/
def cmpWord : Word → Word → Ordering
  | [], [] => Ordering.eq
  | [], _ :: _ => Ordering.lt
  | _ :: _, [] => Ordering.gt
  | a :: as, b :: bs =>
    match cmpChar a b with
    | Ordering.eq => cmpWord as bs
    | o => o

/-- Translation of count_asc (src/src/main.rs lines 320-334): count
ascending, then word byte-length ascending, then lexicographic word
ascending. -/
def count_asc (first second : WordPair) : Ordering :=
  let count := compare first.2 second.2
  if count = Ordering.eq then
    let len := compare (byteLen first.1) (byteLen second.1)
    if len = Ordering.eq then cmpWord first.1 second.1 else len
  else count

/-- Translation of count_desc (src/src/main.rs lines 337-346): count
descending, ties by lexicographic word descending. -/
def count_desc (first second : WordPair) : Ordering :=
  let ord := compare second.2 first.2
  if ord = Ordering.eq then cmpWord second.1 first.1 else ord

/-- Translation of alpha_asc: lexicographic word ascending, count ignored. -/
def alpha_asc (first second : WordPair) : Ordering :=
  cmpWord first.1 second.1

/-- Translation of alpha_desc: lexicographic word descending, count
ignored. -/
def alpha_desc (first second : WordPair) : Ordering :=
  cmpWord second.1 first.1

/-- Rendered body of one plain-format line: word, space, count. -/
def plainLine (p : WordPair) : List Char := p.1 ++ ' ' :: natChars p.2

/-- Rendered body of one csv line: quoted word, comma, space, bare count. -/
def csvLine (p : WordPair) : List Char :=
  '"' :: p.1 ++ '"' :: ',' :: ' ' :: natChars p.2

/-- Rendered json array element: tab tab quoted word, colon, space, count,
and a trailing comma before the newline. -/
def jsonLine (p : WordPair) : List Char :=
  '\t' :: '\t' :: '"' :: p.1 ++ '"' :: ':' :: ' ' :: natChars p.2 ++ [',', '\n']

/-- Translation of plain (src/src/main.rs lines 294-299): one write of
"word space count newline" per pair, appended to the writer. -/
def plain (items : WordCountVec) (writer : List Char) : List Char :=
  items.foldl (fun w p => w ++ plainLine p ++ ['\n']) writer

/-- Translation of csv (src/src/main.rs lines 302-308): a header line
followed by one quoted-word line per pair. -/
def csv (items : WordCountVec) (writer : List Char) : List Char :=
  items.foldl (fun w p => w ++ csvLine p ++ ['\n']) (writer ++ String.data "word, count\n")

/-- Opening bytes written by the json formatter. -/
def jsonHeader : List Char := String.data "\x7b\n\t\"wordCount\": [\n"

/-- Closing bytes written by the json formatter. -/
def jsonFooter : List Char := String.data "\t]\n\x7d"

/-- Translation of json (src/src/main.rs lines 311-317): header, one
element line per pair each ending in a comma, then the footer. -/
def json (items : WordCountVec) (writer : List Char) : List Char :=
  (items.foldl (fun w p => w ++ jsonLine p) (writer ++ jsonHeader)) ++ jsonFooter

/-- Translation of the MyError taxonomy; io::Error is an abstract code. -/
inductive MyError where
  | OpenFile (path : String) (err : Nat)
  | ReadFile (path : String) (err : Nat)
  | ReadDir (path : String) (err : Nat)
  | ReadStdIn (err : Nat)
  | NotFileNorDir (path : String)
  | InvalidPath (path : String)
deriving DecidableEq

/-- Abstract file-system node: what the host would answer for each way the
program can touch the node.  A file or other (neither-file-nor-directory)
node records the outcome of opening and reading it as text; a directory
records either a listing failure or its entries, each entry being either an
entry-retrieval failure or a named child node. -/
inductive FsEntry where
  | file (res : Except Nat (List Char))
  | other (res : Except Nat (List Char))
  | dirFail (err : Nat)
  | dir (entries : List (Except Nat (String × FsEntry)))

/-- Models Path::is_file. -/
def FsEntry.is_file : FsEntry → Bool
  | .file _ => true
  | _ => false

/-- Models Path::is_dir. -/
def FsEntry.is_dir : FsEntry → Bool
  | .dirFail _ => true
  | .dir _ => true
  | _ => false

/-- Error code modelling the I/O failure of reading a directory as a file. -/
def isDirErrorCode : Nat := 21

/-- Error code modelling the I/O failure of listing a non-directory. -/
def notDirErrorCode : Nat := 20

/-- Outcome of File::open followed by read_to_string on a node: files and
other nodes answer their recorded outcome, directories fail. -/
def FsEntry.readAsFile : FsEntry → Except Nat (List Char)
  | .file r => r
  | .other r => r
  | .dirFail _ => Except.error isDirErrorCode
  | .dir _ => Except.error isDirErrorCode

/-- Translation of WordCountParams. -/
structure WordCountParams where
  ignore_case : Bool
  recursive : Bool
  sort_by : Option (WordPair → WordPair → Ordering)

/-- Translation of struct WordCount: parameters, the shared text buffer and
the accumulated dictionary. -/
structure WordCount where
  params : WordCountParams
  buf : List Char
  map : Dictionary

/-- Translation of WordCount::new. -/
def WordCount.new (params : WordCountParams) : WordCount :=
  { params := params, buf := [], map := [] }

/-- Translation of WordCount::from_file (lines 158-167): read the file into
the buffer, count words, clear the buffer; open and read failures both map
to ReadFile wrapping the path. -/
def WordCount.from_file (path : String) (e : FsEntry) (st : WordCount) : Except MyError WordCount :=
  match e.readAsFile with
  | Except.ok content =>
    Except.ok
      { st with
        map := count_words (st.buf ++ content) st.map st.params.ignore_case
        buf := [] }
  | Except.error err => Except.error (MyError.ReadFile path err)

/-- Translation of WordCount::from_stdin (lines 192-204). -/
def WordCount.from_stdin (stdinData : Except Nat (List Char)) (st : WordCount) : Except MyError WordCount :=
  match stdinData with
  | Except.ok content =>
    Except.ok
      { st with
        map := count_words (st.buf ++ content) st.map st.params.ignore_case
        buf := [] }
  | Except.error err => Except.error (MyError.ReadStdIn err)

mutual

/-- Translation of WordCount::from_dir (lines 170-189): a listing failure
becomes ReadDir wrapping the directory path; otherwise the entries are
traversed in order by from_entries. -/
def WordCount.from_dir (path : String) (e : FsEntry) (st : WordCount) : Except MyError WordCount :=
  match e with
  | FsEntry.dirFail err => Except.error (MyError.ReadDir path err)
  | FsEntry.dir entries => WordCount.from_entries path entries st
  | FsEntry.file _ => Except.error (MyError.ReadDir path notDirErrorCode)
  | FsEntry.other _ => Except.error (MyError.ReadDir path notDirErrorCode)
termination_by sizeOf e

/-- Translation of the try_for_each loop inside from_dir: a failed entry
retrieval becomes ReadFile wrapping the directory path; a directory entry is
recursed into exactly when the recursive flag is set, any other entry goes to
from_file; the first failure aborts the remaining entries. -/
def WordCount.from_entries (path : String) (items : List (Except Nat (String × FsEntry))) (st : WordCount) : Except MyError WordCount :=
  match items with
  | [] => Except.ok st
  | item :: rest =>
    match
      (match item with
       | Except.error err => Except.error (MyError.ReadFile path err)
       | Except.ok (epath, e) =>
         if e.is_dir && st.params.recursive then WordCount.from_dir epath e st
         else WordCount.from_file epath e st) with
    | Except.error err => Except.error err
    | Except.ok st2 => WordCount.from_entries path rest st2
termination_by sizeOf items

end

/-- Translation of WordCount::count (lines 239-245): flatten the dictionary
and sort it when a comparator was configured; Vec::sort_by is modelled by a
stable merge sort ordered by "does not compare greater". -/
def WordCount.count (st : WordCount) : WordCountVec :=
  let v : WordCountVec := st.map
  match st.params.sort_by with
  | some sb => v.mergeSort (fun a b => match sb a b with | Ordering.gt => false | _ => true)
  | none => v

/-- Translation of the per-path dispatch in WordCount::collect (lines
218-228): a missing path is InvalidPath, a file goes to from_file, a
directory to from_dir, anything else is NotFileNorDir. -/
def WordCount.processPath (fs : String → Option FsEntry) (st : WordCount) (src : String) : Except MyError WordCount :=
  match fs src with
  | none => Except.error (MyError.InvalidPath src)
  | some e =>
    if e.is_file then WordCount.from_file src e st
    else if e.is_dir then WordCount.from_dir src e st
    else Except.error (MyError.NotFileNorDir src)

/-- Translation of the path loop of WordCount::collect: paths are processed
in the order given; the first error is returned as is and ends the loop; on
success the flattened (and possibly sorted) result is returned. -/
def WordCount.collectPaths (fs : String → Option FsEntry) (st : WordCount) : List String → Except MyError WordCountVec
  | [] => Except.ok st.count
  | src :: rest =>
    match WordCount.processPath fs st src with
    | Except.error e => Except.error e
    | Except.ok st2 => WordCount.collectPaths fs st2 rest

/-- Translation of WordCount::collect (lines 209-236): absent paths mean
stdin; present paths are processed in order with fail-fast. -/
def WordCount.collect (fs : String → Option FsEntry) (stdinData : Except Nat (List Char)) (st : WordCount) (in_path : Option (List String)) : Except MyError WordCountVec :=
  match in_path with
  | none =>
    match WordCount.from_stdin stdinData st with
    | Except.error err => Except.error err
    | Except.ok st2 => Except.ok st2.count
  | some paths => WordCount.collectPaths fs st paths

/-- Per-entry step of a directory traversal, stated the way the spec
describes it, used to characterise from_dir as a monadic fold. -/
def WordCount.processEntry (dirPath : String) (st : WordCount) (item : Except Nat (String × FsEntry)) : Except MyError WordCount :=
  match item with
  | Except.error err => Except.error (MyError.ReadFile dirPath err)
  | Except.ok (epath, e) =>
    if e.is_dir && st.params.recursive then WordCount.from_dir epath e st
    else WordCount.from_file epath e st

/-- Comparator laws making an Ordering-valued comparator a strict total
order: swapping arguments swaps the verdict, strict verdicts are transitive,
and an equal verdict makes the two arguments interchangeable. -/
structure IsCmp {α : Type} (cmp : α → α → Ordering) : Prop where
  swap_eq : ∀ a b, cmp a b = (cmp b a).swap
  lt_trans : ∀ a b c, cmp a b = Ordering.lt → cmp b c = Ordering.lt → cmp a c = Ordering.lt
  eq_subst : ∀ a b c, cmp a b = Ordering.eq → cmp b c = cmp a c

/-! Dictionary and tokenizer lemmas. -/

theorem dictLookup_dictIncr (m : Dictionary) (w k : Word) :
    dictLookup (dictIncr m w) k =
      if k = w then some ((dictLookup m w).getD 0 + 1) else dictLookup m k := by
  induction m with
  | nil =>
    by_cases hkw : k = w
    · subst hkw; simp [dictIncr, dictLookup]
    · simp [dictIncr, dictLookup, hkw, Ne.symm hkw]
  | cons kv rest ih =>
    obtain ⟨a, v⟩ := kv
    by_cases haw : a = w
    · subst haw
      by_cases hka : a = k
      · subst hka; simp [dictIncr, dictLookup]
      · simp [dictIncr, dictLookup, hka, Ne.symm hka]
    · by_cases hka : a = k
      · subst hka
        simp [dictIncr, dictLookup, haw, Ne.symm haw]
      · simp [dictIncr, dictLookup, haw, hka, ih]

theorem dictLookup_foldl_dictIncr (ws : List Word) :
    ∀ (m : Dictionary) (k : Word),
      dictLookup (ws.foldl dictIncr m) k =
        if List.count k ws = 0 then dictLookup m k
        else some ((dictLookup m k).getD 0 + List.count k ws) := by
  induction ws with
  | nil => intro m k; simp
  | cons w rest ih =>
    intro m k
    simp only [List.foldl_cons]
    rw [ih, dictLookup_dictIncr]
    by_cases hkw : k = w
    · subst hkw
      simp only [List.count_cons, beq_self_eq_true, if_true]
      by_cases h0 : List.count k rest = 0
      · simp [h0]
      · simp only [h0, if_false]
        have : List.count k rest + 1 ≠ 0 := by omega
        simp only [this, if_false, Option.getD_some]
        congr 1
        omega
    · have hbeq : (w == k) = false := by
        simp [beq_eq_false_iff_ne]
        exact fun h => hkw h.symm
      simp [List.count_cons, hbeq, hkw]

theorem count_words_eq_foldl (s : List Char) (m : Dictionary) (ic : Bool) :
    count_words s m ic =
      (((splitList (fun c => !(isAlphabetic c)) s).filter
          (fun w => !w.isEmpty)).map (applyCase ic)).foldl dictIncr m := by
  show (splitList (fun c => !(isAlphabetic c)) s).foldl _ m = _
  generalize splitList (fun c => !(isAlphabetic c)) s = ws
  induction ws generalizing m with
  | nil => simp
  | cons w rest ih =>
    cases hw : w.isEmpty
    · simp only [List.foldl_cons, List.filter_cons, hw, Bool.not_false, if_true, List.map_cons,
        Bool.false_eq_true, if_false]
      exact ih _
    · simp only [List.foldl_cons, List.filter_cons, hw, Bool.not_true, if_true,
        Bool.false_eq_true, if_false]
      exact ih _

theorem splitList_shape (p : Char → Bool) (l : List Char) :
    splitList p l =
      l.takeWhile (fun c => !(p c)) :: splitRest p (l.dropWhile (fun c => !(p c))) := by
  induction l with
  | nil => rfl
  | cons c cs ih =>
    cases h : p c
    · simp only [splitList, h, if_false, Bool.false_eq_true]
      rw [ih]
      simp [List.takeWhile_cons, List.dropWhile_cons, h]
    · simp [splitList, splitRest, List.takeWhile_cons, List.dropWhile_cons, h]

theorem dropWhile_head_false (p : Char → Bool) (l : List Char) (d : Char) (ds : List Char)
    (h : l.dropWhile p = d :: ds) : p d = false := by
  induction l with
  | nil => simp [List.dropWhile] at h
  | cons c cs ih =>
    rw [List.dropWhile_cons] at h
    by_cases hc : p c = true
    · rw [if_pos hc] at h
      exact ih h
    · rw [if_neg hc] at h
      cases h
      simpa using hc

theorem filter_splitRest (p : Char → Bool) (m : List Char)
    (h : ∀ d ds, m = d :: ds → p d = true) :
    (splitRest p m).filter (fun w => !w.isEmpty) =
      (splitList p m).filter (fun w => !w.isEmpty) := by
  cases m with
  | nil => simp [splitRest, splitList]
  | cons d ds =>
    have hd : p d = true := h d ds rfl
    simp [splitRest, splitList, hd, List.filter_cons]

theorem splitList_filter_eq_alphaRuns (l : List Char) :
    (splitList (fun c => !(isAlphabetic c)) l).filter (fun w => !w.isEmpty) = alphaRuns l := by
  induction l using alphaRuns.induct with
  | case1 => simp [splitList, alphaRuns]
  | case2 c cs h ih =>
    rw [splitList_shape]
    simp only [Bool.not_not]
    rw [List.takeWhile_cons, List.dropWhile_cons]
    simp only [h, if_true]
    rw [List.filter_cons]
    simp only [List.isEmpty_cons, Bool.not_false, if_true]
    rw [alphaRuns]
    simp only [h, if_true]
    have hfilter :
        (splitRest (fun c => !(isAlphabetic c))
            (List.dropWhile (fun d => isAlphabetic d) cs)).filter (fun w => !w.isEmpty) =
          (splitList (fun c => !(isAlphabetic c))
            (List.dropWhile (fun d => isAlphabetic d) cs)).filter (fun w => !w.isEmpty) := by
      apply filter_splitRest
      intro d ds hdd
      have hfalse := dropWhile_head_false (fun d => isAlphabetic d) cs d ds hdd
      simpa using hfalse
    rw [hfilter, ih]
  | case3 c cs h ih =>
    rw [alphaRuns]
    simp only [h, Bool.false_eq_true, if_false]
    rw [show splitList (fun c => !(isAlphabetic c)) (c :: cs) =
          [] :: splitList (fun c => !(isAlphabetic c)) cs by
        simp [splitList, h]]
    rw [List.filter_cons]
    simp only [List.isEmpty_nil, Bool.not_true, Bool.false_eq_true, if_false]
    exact ih

theorem dictLookup_count_words (s : List Char) (m : Dictionary) (ic : Bool) (k : Word) :
    dictLookup (count_words s m ic) k =
      if List.count k (tokensOf s ic) = 0 then dictLookup m k
      else some ((dictLookup m k).getD 0 + List.count k (tokensOf s ic)) := by
  rw [count_words_eq_foldl, splitList_filter_eq_alphaRuns, dictLookup_foldl_dictIncr]
  rfl

example :
    count_words (String.data "hello, world! 123 foo-bar") [] false =
      [(String.data "hello", 1), (String.data "world", 1),
       (String.data "foo", 1), (String.data "bar", 1)] := by decide

example :
    count_words (String.data "Cat cat CAT") [] true = [(String.data "cat", 3)] := by decide

example :
    count_words (String.data "Cat cat CAT") [] false =
      [(String.data "Cat", 1), (String.data "cat", 1), (String.data "CAT", 1)] := by decide

example :
    (splitList (fun c => !(isAlphabetic c)) (String.data "foo-bar baz")).filter
        (fun w => !w.isEmpty) =
      [String.data "foo", String.data "bar", String.data "baz"] := by decide

/-- C1: count_words splits its input at every character that is not
alphabetic, takes each maximal run of alphabetic characters as a candidate
word, lowercases the candidate exactly when ignore_case is true (otherwise
uses it verbatim), and for each non-empty candidate increments that key's
count in the Dictionary by 1, defaulting to 0 when the key is absent; every
other key keeps its binding, the empty string is a no-op, and the model is a
total function, so there is no failure mode. -/
theorem count_words_tokeniser_correct :
    (∀ (s : List Char) (m : Dictionary) (ic : Bool) (k : Word),
        dictLookup (count_words s m ic) k =
          if List.count k (tokensOf s ic) = 0 then dictLookup m k
          else some ((dictLookup m k).getD 0 + List.count k (tokensOf s ic)))
    ∧ (∀ (m : Dictionary) (ic : Bool), count_words [] m ic = m) :=
  ⟨dictLookup_count_words, fun _ _ => rfl⟩

theorem mem_dictIncr (m : Dictionary) (w : Word) (hw : w ≠ [])
    (hm : ∀ p ∈ m, p.1 ≠ [] ∧ 1 ≤ p.2) :
    ∀ p ∈ dictIncr m w, p.1 ≠ [] ∧ 1 ≤ p.2 := by
  induction m with
  | nil =>
    intro p hp
    simp only [dictIncr, List.mem_singleton] at hp
    subst hp
    exact ⟨hw, le_refl 1⟩
  | cons kv rest ih =>
    obtain ⟨a, v⟩ := kv
    intro p hp
    by_cases haw : a = w
    · simp only [dictIncr, haw, if_true, List.mem_cons] at hp
      rcases hp with hp | hp
      · subst hp
        refine ⟨haw ▸ hw, by omega⟩
      · exact hm p (List.mem_cons_of_mem _ hp)
    · simp only [dictIncr, haw, if_false, List.mem_cons] at hp
      rcases hp with hp | hp
      · subst hp
        exact hm (a, v) (List.mem_cons_self _ _)
      · exact ih (fun q hq => hm q (List.mem_cons_of_mem _ hq)) p hp

theorem mem_foldl_dictIncr (ts : List Word) :
    ∀ (m : Dictionary), (∀ t ∈ ts, t ≠ []) → (∀ p ∈ m, p.1 ≠ [] ∧ 1 ≤ p.2) →
      ∀ p ∈ ts.foldl dictIncr m, p.1 ≠ [] ∧ 1 ≤ p.2 := by
  induction ts with
  | nil => intro m _ hm; simpa using hm
  | cons t rest ih =>
    intro m hts hm
    simp only [List.foldl_cons]
    exact ih _ (fun u hu => hts u (List.mem_cons_of_mem _ hu))
      (mem_dictIncr m t (hts t (List.mem_cons_self _ _)) hm)

theorem applyCase_ne_nil (ic : Bool) (w : Word) (hw : w ≠ []) : applyCase ic w ≠ [] := by
  cases ic <;> simp [applyCase, hw]

theorem count_words_preserves_invariant (s : List Char) (m : Dictionary) (ic : Bool)
    (hm : ∀ p ∈ m, p.1 ≠ [] ∧ 1 ≤ p.2) :
    ∀ p ∈ count_words s m ic, p.1 ≠ [] ∧ 1 ≤ p.2 := by
  rw [count_words_eq_foldl]
  apply mem_foldl_dictIncr _ _ _ hm
  intro t ht
  simp only [List.mem_map, List.mem_filter] at ht
  obtain ⟨u, ⟨_, hu_ne⟩, rfl⟩ := ht
  apply applyCase_ne_nil
  intro hnil
  subst hnil
  simp at hu_ne

theorem runCalls_aux (calls : List (List Char × Bool)) :
    ∀ (d : Dictionary), (∀ p ∈ d, p.1 ≠ [] ∧ 1 ≤ p.2) →
      ∀ p ∈ calls.foldl (fun d c => count_words c.1 d c.2) d, p.1 ≠ [] ∧ 1 ≤ p.2 := by
  induction calls with
  | nil => intro d hd; simpa using hd
  | cons c rest ih =>
    intro d hd
    simp only [List.foldl_cons]
    exact ih _ (count_words_preserves_invariant c.1 d c.2 hd)

/-- C2: over any sequence of count_words calls on a Dictionary that starts
empty, the Dictionary never contains the empty-string key, and every
(word, count) pair produced by flattening it has count at least 1 — no
explicit zero entries are ever created. -/
theorem runCalls_no_empty_key_positive_counts :
    ∀ (calls : List (List Char × Bool)) (p : WordPair),
      p ∈ runCalls calls → p.1 ≠ [] ∧ 1 ≤ p.2 :=
  fun calls p hp => runCalls_aux calls [] (by simp) p hp

/-- Witness for C2 at a concrete call sequence. -/
theorem runCalls_no_empty_key_positive_counts_witness :
    String.data "a" ≠ ([] : Word) ∧ 1 ≤ 2 :=
  runCalls_no_empty_key_positive_counts [(String.data "a a", false)]
    (String.data "a", 2) (by decide)

/-- C10: count_words is monotone on the Dictionary: every key present before
a call is still present afterwards with a count at least its previous value;
no call removes a key or decreases a count. -/
theorem count_words_monotone :
    ∀ (s : List Char) (m : Dictionary) (ic : Bool) (k : Word) (c : Nat),
      dictLookup m k = some c →
      ∃ c', dictLookup (count_words s m ic) k = some c' ∧ c ≤ c' := by
  intro s m ic k c hc
  rw [dictLookup_count_words]
  by_cases h0 : List.count k (tokensOf s ic) = 0
  · exact ⟨c, by simp [h0, hc], le_refl c⟩
  · exact ⟨c + List.count k (tokensOf s ic), by simp [h0, hc], by omega⟩

/-- Witness for C10 at a concrete dictionary and input. -/
theorem count_words_monotone_witness :
    ∃ c', dictLookup (count_words (String.data "b a") [(String.data "a", 2)] false)
            (String.data "a") = some c' ∧ 2 ≤ c' :=
  count_words_monotone (String.data "b a") [(String.data "a", 2)] false
    (String.data "a") 2 (by decide)

/-- C8: count_words is order-independent across repeated calls accumulating
into the same Dictionary: counting s then t produces the same Dictionary —
HashMap equality being key-value (lookup) equality — as counting t then s. -/
theorem count_words_order_independent :
    ∀ (s t : List Char) (m : Dictionary) (ic : Bool) (k : Word),
      dictLookup (count_words t (count_words s m ic) ic) k =
        dictLookup (count_words s (count_words t m ic) ic) k := by
  intro s t m ic k
  rw [dictLookup_count_words, dictLookup_count_words,
    dictLookup_count_words, dictLookup_count_words]
  by_cases hs : List.count k (tokensOf s ic) = 0 <;>
    by_cases ht : List.count k (tokensOf t ic) = 0
  · simp [hs, ht]
  · simp [hs, ht]
  · simp [hs, ht]
  · simp only [hs, ht, if_false]
    simp only [Option.getD_some, Option.some_inj]
    omega

example :
    runCalls [(String.data "a a", false), (String.data "a", false)] =
      [(String.data "a", 3)] := by decide

example :
    runCalls [(String.data "a", false), (String.data "a a", false)] =
      [(String.data "a", 3)] := by decide

/-! Comparator lemmas. -/

theorem natCompare_isCmp : IsCmp (fun a b : Nat => compare a b) := by
  constructor
  · intro a b
    show compare a b = (compare b a).swap
    rcases Nat.lt_trichotomy a b with h | h | h
    · rw [Nat.compare_eq_lt.mpr h, Nat.compare_eq_gt.mpr h]; rfl
    · subst h; rw [Nat.compare_eq_eq.mpr rfl]; rfl
    · rw [Nat.compare_eq_gt.mpr h, Nat.compare_eq_lt.mpr h]; rfl
  · intro a b c hab hbc
    exact Nat.compare_eq_lt.mpr
      (Nat.lt_trans (Nat.compare_eq_lt.mp hab) (Nat.compare_eq_lt.mp hbc))
  · intro a b c hab
    show compare b c = compare a c
    rw [Nat.compare_eq_eq.mp hab]

theorem cmpChar_eq_iff (a b : Char) : cmpChar a b = Ordering.eq ↔ a = b := by
  constructor
  · intro h
    exact Char.ext (UInt32.ext (Nat.compare_eq_eq.mp h))
  · intro h
    subst h
    exact Nat.compare_eq_eq.mpr rfl

theorem cmpChar_isCmp : IsCmp cmpChar := by
  constructor
  · intro a b; exact natCompare_isCmp.swap_eq a.toNat b.toNat
  · intro a b c; exact natCompare_isCmp.lt_trans a.toNat b.toNat c.toNat
  · intro a b c; exact natCompare_isCmp.eq_subst a.toNat b.toNat c.toNat

theorem cmpWord_cons_cons (x y : Char) (xs ys : Word) :
    cmpWord (x :: xs) (y :: ys) =
      match cmpChar x y with
      | Ordering.eq => cmpWord xs ys
      | o => o := rfl

theorem cmpWord_eq_iff : ∀ (a b : Word), cmpWord a b = Ordering.eq ↔ a = b := by
  intro a
  induction a with
  | nil => intro b; cases b <;> simp [cmpWord]
  | cons x xs ih =>
    intro b
    cases b with
    | nil => simp [cmpWord]
    | cons y ys =>
      rw [cmpWord_cons_cons]
      cases h : cmpChar x y
      case lt =>
        have hxy : x ≠ y := by
          intro he
          subst he
          rw [(cmpChar_eq_iff x x).mpr rfl] at h
          cases h
        simp [hxy]
      case eq =>
        have hxy : x = y := (cmpChar_eq_iff x y).mp h
        subst hxy
        simp [ih ys]
      case gt =>
        have hxy : x ≠ y := by
          intro he
          subst he
          rw [(cmpChar_eq_iff x x).mpr rfl] at h
          cases h
        simp [hxy]

theorem cmpWord_swap : ∀ (a b : Word), cmpWord a b = (cmpWord b a).swap := by
  intro a
  induction a with
  | nil => intro b; cases b <;> rfl
  | cons x xs ih =>
    intro b
    cases b with
    | nil => rfl
    | cons y ys =>
      rw [cmpWord_cons_cons, cmpWord_cons_cons]
      have hs := cmpChar_isCmp.swap_eq x y
      cases h : cmpChar y x
      case lt =>
        rw [h] at hs
        rw [hs]
        rfl
      case eq =>
        rw [h] at hs
        rw [hs]
        exact ih ys
      case gt =>
        rw [h] at hs
        rw [hs]
        rfl

theorem cmpWord_lt_trans : ∀ (a b c : Word),
    cmpWord a b = Ordering.lt → cmpWord b c = Ordering.lt → cmpWord a c = Ordering.lt := by
  intro a
  induction a with
  | nil =>
    intro b c hab hbc
    cases b with
    | nil => cases hab
    | cons y ys =>
      cases c with
      | nil => cases hbc
      | cons z zs => rfl
  | cons x xs ih =>
    intro b c hab hbc
    cases b with
    | nil => cases hab
    | cons y ys =>
      cases c with
      | nil => cases hbc
      | cons z zs =>
        rw [cmpWord_cons_cons] at hab hbc ⊢
        cases h1 : cmpChar x y <;> rw [h1] at hab
        case lt =>
          cases h2 : cmpChar y z <;> rw [h2] at hbc
          case lt => rw [cmpChar_isCmp.lt_trans x y z h1 h2]
          case eq =>
            have hyz : y = z := (cmpChar_eq_iff y z).mp h2
            subst hyz
            rw [h1]
          case gt => cases hbc
        case eq =>
          have hxy : x = y := (cmpChar_eq_iff x y).mp h1
          subst hxy
          cases h2 : cmpChar x z <;> rw [h2] at hbc
          case eq => exact ih ys zs hab hbc
          case gt => cases hbc
        case gt => cases hab

theorem cmpWord_isCmp : IsCmp cmpWord := by
  constructor
  · exact cmpWord_swap
  · exact cmpWord_lt_trans
  · intro a b c hab
    rw [(cmpWord_eq_iff a b).mp hab]

theorem ordering_then_eq (o o' : Ordering) :
    o.then o' = Ordering.eq ↔ o = Ordering.eq ∧ o' = Ordering.eq := by
  cases o <;> simp [Ordering.then]

theorem ordering_swap_then (o o' : Ordering) : (o.then o').swap = o.swap.then o'.swap := by
  cases o <;> rfl

theorem isCmp_comap {α β : Type} (cmp : β → β → Ordering) (h : IsCmp cmp) (f : α → β) :
    IsCmp (fun a b => cmp (f a) (f b)) := by
  constructor
  · intro a b; exact h.swap_eq (f a) (f b)
  · intro a b c; exact h.lt_trans (f a) (f b) (f c)
  · intro a b c; exact h.eq_subst (f a) (f b) (f c)

theorem isCmp_then {α : Type} (f g : α → α → Ordering) (hf : IsCmp f) (hg : IsCmp g) :
    IsCmp (fun a b => (f a b).then (g a b)) := by
  constructor
  · intro a b
    show (f a b).then (g a b) = ((f b a).then (g b a)).swap
    rw [ordering_swap_then, ← hf.swap_eq, ← hg.swap_eq]
  · intro a b c hab hbc
    show (f a c).then (g a c) = Ordering.lt
    simp only at hab hbc
    cases h1 : f a b <;> rw [h1] at hab
    case lt =>
      cases h2 : f b c <;> rw [h2] at hbc
      case lt => rw [hf.lt_trans a b c h1 h2]; rfl
      case eq =>
        have hcb : f c b = Ordering.eq := by rw [hf.swap_eq c b, h2]; rfl
        have hba : f b a = Ordering.gt := by rw [hf.swap_eq b a, h1]; rfl
        have hca : f c a = Ordering.gt := by rw [← hf.eq_subst c b a hcb]; exact hba
        have hac : f a c = Ordering.lt := by rw [hf.swap_eq a c, hca]; rfl
        rw [hac]; rfl
      case gt => simp [Ordering.then] at hbc
    case eq =>
      have hair : f b c = f a c := hf.eq_subst a b c h1
      cases h2 : f b c <;> rw [h2] at hbc
      case lt => rw [← hair, h2]; rfl
      case eq =>
        have hfac : f a c = Ordering.eq := by rw [← hair, h2]
        rw [hfac]
        exact hg.lt_trans a b c hab hbc
      case gt => simp [Ordering.then] at hbc
    case gt => simp [Ordering.then] at hab
  · intro a b c hab
    simp only at hab
    rw [ordering_then_eq] at hab
    show (f b c).then (g b c) = (f a c).then (g a c)
    rw [hf.eq_subst a b c hab.1, hg.eq_subst a b c hab.2]

theorem count_asc_then (p q : WordPair) :
    count_asc p q =
      (compare p.2 q.2).then
        ((compare (byteLen p.1) (byteLen q.1)).then (cmpWord p.1 q.1)) := by
  cases h1 : compare p.2 q.2 <;> cases h2 : compare (byteLen p.1) (byteLen q.1) <;>
    simp [count_asc, h1, h2, Ordering.then]

theorem count_desc_then (p q : WordPair) :
    count_desc p q = (compare q.2 p.2).then (cmpWord q.1 p.1) := by
  cases h1 : compare q.2 p.2 <;> simp [count_desc, h1, Ordering.then]

theorem count_asc_isCmp : IsCmp count_asc := by
  have hfun : count_asc = fun p q : WordPair =>
      (compare p.2 q.2).then
        ((compare (byteLen p.1) (byteLen q.1)).then (cmpWord p.1 q.1)) := by
    funext p q
    exact count_asc_then p q
  rw [hfun]
  exact isCmp_then _ _ (isCmp_comap _ natCompare_isCmp (fun p : WordPair => p.2))
    (isCmp_then _ _ (isCmp_comap _ natCompare_isCmp (fun p : WordPair => byteLen p.1))
      (isCmp_comap _ cmpWord_isCmp (fun p : WordPair => p.1)))

theorem isCmp_flip {α : Type} (cmp : α → α → Ordering) (h : IsCmp cmp) :
    IsCmp (fun a b => cmp b a) := by
  constructor
  · intro a b; exact h.swap_eq b a
  · intro a b c hab hbc; exact h.lt_trans c b a hbc hab
  · intro a b c hab
    show cmp c b = cmp c a
    have hba : cmp a b = Ordering.eq := by rw [h.swap_eq a b, hab]; rfl
    rw [h.swap_eq c b, h.swap_eq c a, h.eq_subst a b c hba]

theorem count_desc_isCmp : IsCmp count_desc := by
  have hfun : count_desc = fun p q : WordPair =>
      ((fun p q : WordPair => compare p.2 q.2) q p).then
        ((fun p q : WordPair => cmpWord p.1 q.1) q p) := by
    funext p q
    exact count_desc_then p q
  rw [hfun]
  exact isCmp_then _ _
    (isCmp_flip _ (isCmp_comap _ natCompare_isCmp (fun p : WordPair => p.2)))
    (isCmp_flip _ (isCmp_comap _ cmpWord_isCmp (fun p : WordPair => p.1)))

theorem count_asc_eq_iff (p q : WordPair) : count_asc p q = Ordering.eq ↔ p = q := by
  rw [count_asc_then, ordering_then_eq, ordering_then_eq]
  constructor
  · rintro ⟨h1, _, h3⟩
    exact Prod.ext ((cmpWord_eq_iff _ _).mp h3) (Nat.compare_eq_eq.mp h1)
  · rintro rfl
    exact ⟨Nat.compare_eq_eq.mpr rfl, Nat.compare_eq_eq.mpr rfl, (cmpWord_eq_iff _ _).mpr rfl⟩

theorem count_desc_eq_iff (p q : WordPair) : count_desc p q = Ordering.eq ↔ p = q := by
  rw [count_desc_then, ordering_then_eq]
  constructor
  · rintro ⟨h1, h2⟩
    exact Prod.ext ((cmpWord_eq_iff _ _).mp h2).symm (Nat.compare_eq_eq.mp h1).symm
  · rintro rfl
    exact ⟨Nat.compare_eq_eq.mpr rfl, (cmpWord_eq_iff _ _).mpr rfl⟩

/-- C3: the count-ascending comparator orders WordPairs by count ascending,
breaking count ties by word (byte) length ascending and length ties by
lexicographic word ascending; the count-descending comparator orders by count
descending, breaking count ties by lexicographic word descending with no
length tie-break.  Both are strict total orders: they answer eq exactly on
identical pairs (hence never on pairs with distinct words), swapping the
arguments swaps the verdict, and the strict verdict is transitive. -/
theorem comparators_sort_orders :
    (∀ p q : WordPair, count_asc p q =
        (compare p.2 q.2).then
          ((compare (byteLen p.1) (byteLen q.1)).then (cmpWord p.1 q.1)))
    ∧ (∀ p q : WordPair, count_desc p q = (compare q.2 p.2).then (cmpWord q.1 p.1))
    ∧ (∀ p q : WordPair, count_asc p q = Ordering.eq ↔ p = q)
    ∧ (∀ p q : WordPair, count_desc p q = Ordering.eq ↔ p = q)
    ∧ (∀ p q : WordPair, count_asc p q = (count_asc q p).swap)
    ∧ (∀ p q : WordPair, count_desc p q = (count_desc q p).swap)
    ∧ (∀ p q r : WordPair, count_asc p q = Ordering.lt → count_asc q r = Ordering.lt →
        count_asc p r = Ordering.lt)
    ∧ (∀ p q r : WordPair, count_desc p q = Ordering.lt → count_desc q r = Ordering.lt →
        count_desc p r = Ordering.lt) :=
  ⟨count_asc_then, count_desc_then, count_asc_eq_iff, count_desc_eq_iff,
    count_asc_isCmp.swap_eq, count_desc_isCmp.swap_eq,
    count_asc_isCmp.lt_trans, count_desc_isCmp.lt_trans⟩

/-- Witness for C3: both transitivity components applied at concrete pairs. -/
theorem comparators_sort_orders_witness :
    count_asc (String.data "a", 1) (String.data "bb", 2) = Ordering.lt ∧
    count_desc (String.data "bb", 2) (String.data "a", 1) = Ordering.lt := by
  constructor
  · exact comparators_sort_orders.2.2.2.2.2.2.1 (String.data "a", 1) (String.data "c", 1)
      (String.data "bb", 2) (by decide) (by decide)
  · exact comparators_sort_orders.2.2.2.2.2.2.2 (String.data "bb", 2) (String.data "a", 2)
      (String.data "a", 1) (by decide) (by decide)

example : count_asc (String.data "ccc", 1) (String.data "a", 2) = Ordering.lt := by decide

example : count_asc (String.data "a", 2) (String.data "bb", 2) = Ordering.lt := by decide

example : count_desc (String.data "bb", 2) (String.data "a", 2) = Ordering.lt := by decide

example : count_desc (String.data "a", 2) (String.data "ccc", 1) = Ordering.lt := by decide

/-! Formatter lemmas. -/

theorem natChars_no_newline : ∀ (n : Nat) (c : Char), c ∈ natChars n → c ≠ '\n' := by
  have hdig : ∀ d, d < 10 → digitChar d ≠ '\n' := by decide
  intro n
  induction n using natChars.induct with
  | case1 n h =>
    intro c hc
    rw [natChars] at hc
    simp only [h, if_true] at hc
    rw [List.mem_singleton] at hc
    subst hc
    exact hdig n h
  | case2 n h ih =>
    intro c hc
    rw [natChars] at hc
    simp only [h, if_false] at hc
    rw [List.mem_append] at hc
    rcases hc with hc | hc
    · exact ih c hc
    · rw [List.mem_singleton] at hc
      subst hc
      exact hdig (n % 10) (Nat.mod_lt _ (by omega))

theorem foldl_append_flatten {α : Type} (f : α → List Char) (items : List α) :
    ∀ (w : List Char),
      items.foldl (fun acc p => acc ++ f p) w = w ++ (items.map f).flatten := by
  induction items with
  | nil => intro w; simp
  | cons p rest ih =>
    intro w
    simp only [List.foldl_cons, List.map_cons, List.flatten_cons]
    rw [ih, List.append_assoc]

theorem splitList_cons_true (p : Char → Bool) (c : Char) (cs : List Char) (h : p c = true) :
    splitList p (c :: cs) = [] :: splitList p cs := by
  simp [splitList, h]

theorem splitList_cons_false (p : Char → Bool) (c : Char) (cs : List Char) (h : p c = false) :
    splitList p (c :: cs) =
      match splitList p cs with
      | [] => [[c]]
      | t :: ts => (c :: t) :: ts := by
  simp [splitList, h]

theorem splitList_append_no_delim (p : Char → Bool) (xs : List Char)
    (hxs : ∀ c ∈ xs, p c = false) :
    ∀ (ys t : List Char) (ts : List (List Char)),
      splitList p ys = t :: ts → splitList p (xs ++ ys) = (xs ++ t) :: ts := by
  induction xs with
  | nil => intro ys t ts h; simpa using h
  | cons c cs ih =>
    intro ys t ts h
    have hc : p c = false := hxs c (List.mem_cons_self _ _)
    rw [List.cons_append, splitList_cons_false p c (cs ++ ys) hc,
      ih (fun d hd => hxs d (List.mem_cons_of_mem _ hd)) ys t ts h]
    rfl

theorem splitList_line_block (p : Char → Bool) (line : List Char) (d : Char)
    (hline : ∀ c ∈ line, p c = false) (hd : p d = true) (ys : List Char) :
    splitList p (line ++ d :: ys) = line :: splitList p ys := by
  have h1 : splitList p (d :: ys) = [] :: splitList p ys := splitList_cons_true p d ys hd
  have h2 := splitList_append_no_delim p line hline (d :: ys) [] (splitList p ys) h1
  simpa using h2

theorem splitList_flatten_lines (p : Char → Bool) (d : Char) (hd : p d = true) :
    ∀ (ls : List (List Char)), (∀ l ∈ ls, ∀ c ∈ l, p c = false) →
      splitList p ((ls.map (fun l => l ++ [d])).flatten) = ls ++ [[]] := by
  intro ls
  induction ls with
  | nil => intro _; simp [splitList]
  | cons l rest ih =>
    intro hls
    simp only [List.map_cons, List.flatten_cons, List.append_assoc, List.singleton_append]
    rw [splitList_line_block p l d (hls l (List.mem_cons_self _ _)) hd,
      ih (fun m hm => hls m (List.mem_cons_of_mem _ hm))]
    rfl

theorem plainLine_no_newline (p : WordPair) (hp : ∀ c ∈ p.1, c ≠ '\n') :
    ∀ c ∈ plainLine p, (c == '\n') = false := by
  intro c hc
  rw [beq_eq_false_iff_ne]
  simp only [plainLine, List.mem_append, List.mem_cons] at hc
  rcases hc with hc | hc | hc
  · exact hp c hc
  · subst hc; decide
  · exact natChars_no_newline p.2 c hc

theorem csvLine_no_newline (p : WordPair) (hp : ∀ c ∈ p.1, c ≠ '\n') :
    ∀ c ∈ csvLine p, (c == '\n') = false := by
  intro c hc
  rw [beq_eq_false_iff_ne]
  simp only [csvLine, List.mem_append, List.mem_cons] at hc
  rcases hc with (hc | hc) | hc | hc | hc | hc
  · subst hc; decide
  · exact hp c hc
  · subst hc; decide
  · subst hc; decide
  · subst hc; decide
  · exact natChars_no_newline p.2 c hc

/-- C6: for every WordCountVec (whose words, as produced by the tokenizer,
contain no newline), the plain formatter writes exactly one newline-terminated
line per pair of the form word-space-count with no header, and the csv
formatter writes exactly N+1 newline-terminated lines: the header
"word, count" followed per pair by a line carrying the word quoted and the
count unquoted.  Splitting the emitted bytes at newlines returns exactly
those lines followed by the empty tail chunk, so every line is
newline-terminated. -/
theorem plain_csv_line_structure :
    ∀ (items : WordCountVec),
      (∀ p ∈ items, ∀ c ∈ p.1, c ≠ '\n') →
      splitList (fun c => c == '\n') (plain items []) = items.map plainLine ++ [[]]
      ∧ splitList (fun c => c == '\n') (csv items []) =
          String.data "word, count" :: (items.map csvLine ++ [[]]) := by
  intro items hitems
  have hplain : plain items [] = ((items.map plainLine).map (fun l => l ++ ['\n'])).flatten := by
    show items.foldl (fun w p => w ++ plainLine p ++ ['\n']) [] = _
    have hstep : (fun (w : List Char) (p : WordPair) => w ++ plainLine p ++ ['\n']) =
        fun w p => w ++ (plainLine p ++ ['\n']) := by
      funext w p
      rw [List.append_assoc]
    rw [hstep, foldl_append_flatten (fun p => plainLine p ++ ['\n']) items, List.nil_append,
      List.map_map]
    rfl
  have hcsv : csv items [] =
      (((String.data "word, count" :: items.map csvLine)).map (fun l => l ++ ['\n'])).flatten := by
    show items.foldl (fun w p => w ++ csvLine p ++ ['\n']) ([] ++ String.data "word, count\n") = _
    have hstep : (fun (w : List Char) (p : WordPair) => w ++ csvLine p ++ ['\n']) =
        fun w p => w ++ (csvLine p ++ ['\n']) := by
      funext w p
      rw [List.append_assoc]
    rw [hstep, foldl_append_flatten (fun p => csvLine p ++ ['\n']) items, List.nil_append,
      List.map_cons, List.flatten_cons, List.map_map]
    rfl
  constructor
  · rw [hplain]
    apply splitList_flatten_lines (fun c => c == '\n') '\n' (by decide)
    intro l hl
    rw [List.mem_map] at hl
    obtain ⟨p, hp, rfl⟩ := hl
    exact plainLine_no_newline p (hitems p hp)
  · rw [hcsv]
    have hall := splitList_flatten_lines (fun c => c == '\n') '\n' (by decide)
      (String.data "word, count" :: items.map csvLine) ?_
    · rw [hall]
      exact List.cons_append _ _ _
    · intro l hl
      rw [List.mem_cons] at hl
      rcases hl with rfl | hl
      · intro c hc
        rw [beq_eq_false_iff_ne]
        revert hc
        revert c
        decide
      · rw [List.mem_map] at hl
        obtain ⟨p, hp, rfl⟩ := hl
        exact csvLine_no_newline p (hitems p hp)

/-- Witness for C6 on a concrete one-pair vector. -/
theorem plain_csv_line_structure_witness :
    splitList (fun c => c == '\n') (plain [(String.data "hi", 2)] []) =
        [(String.data "hi", 2)].map plainLine ++ [[]]
    ∧ splitList (fun c => c == '\n') (csv [(String.data "hi", 2)] []) =
        String.data "word, count" :: ([(String.data "hi", 2)].map csvLine ++ [[]]) :=
  plain_csv_line_structure [(String.data "hi", 2)] (by decide)

theorem jsonLine_split (p : WordPair) :
    jsonLine p =
      ('\t' :: '\t' :: '"' :: p.1 ++ '"' :: ':' :: ' ' :: natChars p.2) ++ [',', '\n'] := by
  simp [jsonLine, List.append_assoc]

/-- C7: the json formatter writes an object with the single key "wordCount"
whose array elements are rendered as tab-tab-quoted-word-colon-space-count
lines each followed by a comma — the trailing comma appearing after every
element including the last, with no enclosing braces per element — so for a
nonempty vector the emitted bytes end with a dangling comma immediately
before the closing bracket and are not strict JSON. -/
theorem json_not_strict_json :
    ∀ (items : WordCountVec),
      json items [] = jsonHeader ++ (items.map jsonLine).flatten ++ jsonFooter
      ∧ (items ≠ [] →
          ∃ pre, json items [] = pre ++ ',' :: '\n' :: jsonFooter) := by
  intro items
  have hjson : json items [] = jsonHeader ++ (items.map jsonLine).flatten ++ jsonFooter := by
    show items.foldl (fun w p => w ++ jsonLine p) ([] ++ jsonHeader) ++ jsonFooter = _
    rw [foldl_append_flatten jsonLine items, List.nil_append, List.append_assoc]
  refine ⟨hjson, ?_⟩
  intro hne
  rcases List.eq_nil_or_concat items with rfl | ⟨L, b, rfl⟩
  · exact absurd rfl hne
  · refine ⟨jsonHeader ++ (L.map jsonLine).flatten ++
      ('\t' :: '\t' :: '"' :: b.1 ++ '"' :: ':' :: ' ' :: natChars b.2), ?_⟩
    rw [hjson, List.concat_eq_append, List.map_append, List.flatten_append]
    simp only [List.map_cons, List.map_nil, List.flatten_cons, List.flatten_nil,
      List.append_nil]
    rw [jsonLine_split b]
    simp [List.append_assoc]

/-- Witness for C7 on a concrete one-pair vector. -/
theorem json_not_strict_json_witness :
    ∃ pre, json [(String.data "a", 1)] [] = pre ++ ',' :: '\n' :: jsonFooter :=
  (json_not_strict_json [(String.data "a", 1)]).2 (by decide)

/-! Collector lemmas. -/

theorem collectPaths_eq_foldlM (fs : String → Option FsEntry) :
    ∀ (paths : List String) (st : WordCount),
      WordCount.collectPaths fs st paths =
        (List.foldlM (WordCount.processPath fs) st paths).map WordCount.count := by
  intro paths
  induction paths with
  | nil => intro st; rfl
  | cons src rest ih =>
    intro st
    cases hp : WordCount.processPath fs st src with
    | error e =>
      simp [WordCount.collectPaths, hp, List.foldlM_cons, Except.map, Bind.bind, Except.bind]
    | ok st2 =>
      simp [WordCount.collectPaths, hp, List.foldlM_cons, Bind.bind, Except.bind, ih]

theorem collect_fail_fast_aux (fs : String → Option FsEntry)
    (stdinData : Except Nat (List Char)) (st : WordCount) (pre : List String) (bad : String)
    (post : List String) (st1 : WordCount) (e : MyError)
    (h1 : List.foldlM (WordCount.processPath fs) st pre = Except.ok st1)
    (h2 : WordCount.processPath fs st1 bad = Except.error e) :
    WordCount.collect fs stdinData st (some (pre ++ bad :: post)) = Except.error e := by
  show WordCount.collectPaths fs st (pre ++ bad :: post) = Except.error e
  rw [collectPaths_eq_foldlM, List.foldlM_append, h1]
  simp [List.foldlM_cons, h2, Except.map, Bind.bind, Except.bind]

/-- C4: with a present list of input paths, collect processes the paths in
the order given as a fail-fast monadic fold of the per-path dispatch: a path
absent from the file system fails with InvalidPath, a regular file is
delegated to from_file, a directory to from_dir, and anything else fails with
NotFileNorDir; the first error from any path aborts the whole collect call —
the remaining paths are never processed, whatever they are — and that error
is returned to the caller unchanged. -/
theorem collect_paths_fail_fast :
    (∀ (fs : String → Option FsEntry) (stdinData : Except Nat (List Char))
        (st : WordCount) (paths : List String),
        WordCount.collect fs stdinData st (some paths) =
          (List.foldlM (WordCount.processPath fs) st paths).map WordCount.count)
    ∧ (∀ (fs : String → Option FsEntry) (st : WordCount) (src : String),
        fs src = none →
        WordCount.processPath fs st src = Except.error (MyError.InvalidPath src))
    ∧ (∀ (fs : String → Option FsEntry) (st : WordCount) (src : String) (e : FsEntry),
        fs src = some e → e.is_file = true →
        WordCount.processPath fs st src = WordCount.from_file src e st)
    ∧ (∀ (fs : String → Option FsEntry) (st : WordCount) (src : String) (e : FsEntry),
        fs src = some e → e.is_file = false → e.is_dir = true →
        WordCount.processPath fs st src = WordCount.from_dir src e st)
    ∧ (∀ (fs : String → Option FsEntry) (st : WordCount) (src : String) (e : FsEntry),
        fs src = some e → e.is_file = false → e.is_dir = false →
        WordCount.processPath fs st src = Except.error (MyError.NotFileNorDir src))
    ∧ (∀ (fs : String → Option FsEntry) (stdinData : Except Nat (List Char))
        (st : WordCount) (pre : List String) (bad : String) (post : List String)
        (st1 : WordCount) (e : MyError),
        List.foldlM (WordCount.processPath fs) st pre = Except.ok st1 →
        WordCount.processPath fs st1 bad = Except.error e →
        WordCount.collect fs stdinData st (some (pre ++ bad :: post)) = Except.error e) := by
  refine ⟨?_, ?_, ?_, ?_, ?_, collect_fail_fast_aux⟩
  · intro fs stdinData st paths
    exact collectPaths_eq_foldlM fs paths st
  · intro fs st src h
    simp [WordCount.processPath, h]
  · intro fs st src e he hf
    simp [WordCount.processPath, he, hf]
  · intro fs st src e he hf hd
    simp [WordCount.processPath, he, hf, hd]
  · intro fs st src e he hf hd
    simp [WordCount.processPath, he, hf, hd]

/-- Witness for C4: a missing first path aborts immediately with InvalidPath
and the second path is never consulted. -/
theorem collect_paths_fail_fast_witness :
    WordCount.collect (fun _ => none) (Except.ok [])
        (WordCount.new { ignore_case := false, recursive := false, sort_by := none })
        (some (List.append [] ("x" :: ["y"]))) =
      Except.error (MyError.InvalidPath "x") :=
  collect_paths_fail_fast.2.2.2.2.2 (fun _ => none) (Except.ok [])
    (WordCount.new { ignore_case := false, recursive := false, sort_by := none })
    [] "x" ["y"]
    (WordCount.new { ignore_case := false, recursive := false, sort_by := none })
    (MyError.InvalidPath "x") rfl rfl

theorem from_entries_eq_foldlM (path : String) :
    ∀ (items : List (Except Nat (String × FsEntry))) (st : WordCount),
      WordCount.from_entries path items st =
        List.foldlM (WordCount.processEntry path) st items := by
  intro items
  induction items with
  | nil =>
    intro st
    rw [WordCount.from_entries]
    rfl
  | cons item rest ih =>
    intro st
    cases item with
    | error err =>
      rw [WordCount.from_entries, List.foldlM_cons]
      simp [WordCount.processEntry, Bind.bind, Except.bind]
    | ok pe =>
      obtain ⟨epath, e⟩ := pe
      rw [WordCount.from_entries, List.foldlM_cons]
      simp only [WordCount.processEntry]
      cases hb : e.is_dir && st.params.recursive
      · simp only [hb, Bool.false_eq_true, if_false]
        cases hx : WordCount.from_file epath e st with
        | error e2 => simp [Bind.bind, Except.bind]
        | ok st2 =>
          simp only [Bind.bind, Except.bind]
          exact ih st2
      · simp only [hb, if_true]
        cases hx : WordCount.from_dir epath e st with
        | error e2 => simp [Bind.bind, Except.bind]
        | ok st2 =>
          simp only [Bind.bind, Except.bind]
          exact ih st2

theorem from_dir_fail_fast_aux (path : String) (st : WordCount)
    (pre : List (Except Nat (String × FsEntry))) (item : Except Nat (String × FsEntry))
    (post : List (Except Nat (String × FsEntry))) (st1 : WordCount) (e : MyError)
    (h1 : List.foldlM (WordCount.processEntry path) st pre = Except.ok st1)
    (h2 : WordCount.processEntry path st1 item = Except.error e) :
    WordCount.from_dir path (FsEntry.dir (pre ++ item :: post)) st = Except.error e := by
  rw [WordCount.from_dir, from_entries_eq_foldlM, List.foldlM_append, h1]
  simp [List.foldlM_cons, h2, Bind.bind, Except.bind]

/-- C5: from_dir fails with ReadDir wrapping the directory path when listing
the directory fails; otherwise it traverses the listing in order as a
fail-fast monadic fold in which an entry whose retrieval fails aborts with
ReadFile wrapping that directory's path, an entry that is a directory is
recursed into exactly when the recursive flag is enabled, any other entry is
passed to from_file, and the first failure aborts the remainder of that
directory's traversal, whatever entries follow. -/
theorem from_dir_traversal :
    (∀ (path : String) (err : Nat) (st : WordCount),
        WordCount.from_dir path (FsEntry.dirFail err) st =
          Except.error (MyError.ReadDir path err))
    ∧ (∀ (path : String) (entries : List (Except Nat (String × FsEntry))) (st : WordCount),
        WordCount.from_dir path (FsEntry.dir entries) st =
          List.foldlM (WordCount.processEntry path) st entries)
    ∧ (∀ (path : String) (st : WordCount) (err : Nat),
        WordCount.processEntry path st (Except.error err) =
          Except.error (MyError.ReadFile path err))
    ∧ (∀ (path : String) (st : WordCount) (epath : String) (e : FsEntry),
        WordCount.processEntry path st (Except.ok (epath, e)) =
          if e.is_dir && st.params.recursive then WordCount.from_dir epath e st
          else WordCount.from_file epath e st)
    ∧ (∀ (path : String) (st : WordCount) (pre : List (Except Nat (String × FsEntry)))
        (item : Except Nat (String × FsEntry)) (post : List (Except Nat (String × FsEntry)))
        (st1 : WordCount) (e : MyError),
        List.foldlM (WordCount.processEntry path) st pre = Except.ok st1 →
        WordCount.processEntry path st1 item = Except.error e →
        WordCount.from_dir path (FsEntry.dir (pre ++ item :: post)) st = Except.error e) := by
  refine ⟨?_, ?_, ?_, ?_, from_dir_fail_fast_aux⟩
  · intro path err st
    rw [WordCount.from_dir]
  · intro path entries st
    rw [WordCount.from_dir, from_entries_eq_foldlM]
  · intro path st err
    rfl
  · intro path st epath e
    rfl

/-- Witness for C5: a failing entry retrieval aborts the directory traversal
with ReadFile wrapping the directory path, never touching later entries. -/
theorem from_dir_traversal_witness :
    WordCount.from_dir "d"
        (FsEntry.dir (List.append []
          (Except.error 5 :: [Except.ok ("f", FsEntry.file (Except.ok []))])))
        (WordCount.new { ignore_case := false, recursive := false, sort_by := none }) =
      Except.error (MyError.ReadFile "d" 5) :=
  from_dir_traversal.2.2.2.2 "d"
    (WordCount.new { ignore_case := false, recursive := false, sort_by := none })
    [] (Except.error 5) [Except.ok ("f", FsEntry.file (Except.ok []))]
    (WordCount.new { ignore_case := false, recursive := false, sort_by := none })
    (MyError.ReadFile "d" 5) rfl rfl

/-- C9: collect called with a present but empty path sequence neither fails
nor reads standard input — the result is Ok with the flattened empty vector,
for every file system, every stdin outcome and every parameter bundle. -/
theorem collect_empty_paths_ok :
    ∀ (fs : String → Option FsEntry) (stdinData : Except Nat (List Char))
      (params : WordCountParams),
      WordCount.collect fs stdinData (WordCount.new params) (some []) = Except.ok [] := by
  intro fs stdinData params
  show Except.ok (WordCount.new params).count = Except.ok []
  have hcount : (WordCount.new params).count = [] := by
    unfold WordCount.count
    cases hs : params.sort_by with
    | none => simp [WordCount.new, hs]
    | some sb => simp [WordCount.new, hs, List.mergeSort_nil]
  rw [hcount]
